import Mathlib

/-!
Verification of the `postit` terminal kanban board.

The definitions below are a shallow embedding of the Rust sources:
* `src/model.rs` — `Board`, `Column`, `Note`, `BoardError` and the mutation
  primitives `add_note`, `move_note`, `update_note`, `touch`, `ensure_wip`.
* `src/ui.rs` — the viewport scroller `adjust_offset`, the text-field editor
  (`FieldValue.insert_char` / `FieldValue.backspace` / `prev_grapheme`), the
  due-date parser `parse_due_string`, the form-submit path
  `create_note_from_form`, and the board-view move actions `move_selected` /
  `move_to_column` / `delete_note`.

Modelling conventions:
* Rust's `HashMap<NoteId, Note>` is modelled as an association list with
  unique keys maintained by `mapInsert` (insert replaces the value of an
  existing key, exactly like `HashMap::insert`); only key membership and
  lookup are observable to the program.
* `&mut self` methods returning `Result<(), BoardError>` are modelled in
  state-passing style as functions returning `Except BoardError Unit × Board`;
  an early `return Err(..)` happens before any mutation in the source, so the
  error cases return the incoming board unchanged.
* `DateTime<Utc>` is modelled as `Int` (minutes since the civil epoch is more
  than enough resolution for everything the program observes); `Utc::now()`
  becomes an explicit `now : Int` argument.
* Machine integers (`usize`, `u32`, `isize`) are modelled as `Nat`/`Int`.
  The cast `note_ids.len() as u32` in `ensure_wip` is modelled as the
  identity: the wrap-around is unobservable for any board a process can hold.
-/

deriving instance DecidableEq for Except

/-! ### Generic list helpers (Rust `Iterator::position`, `Vec` index update) -/

/-- Rust `Iterator::position`: index of the first element satisfying `p`. -/
def listPosition (p : α → Bool) : List α → Option Nat
  | [] => none
  | x :: xs => if p x then some 0 else (listPosition p xs).map (· + 1)

/-- In-place update `v[i] = f(v[i])` of a Rust `Vec` (out-of-range panics in
Rust; callers only pass indices obtained from a successful lookup). -/
def listModify : List α → Nat → (α → α) → List α
  | [], _, _ => []
  | x :: xs, 0, f => f x :: xs
  | x :: xs, n + 1, f => x :: listModify xs n f

/-! ### Association-list model of `HashMap<NoteId, Note>` -/

/-- `HashMap::contains_key`. -/
def mapContains (m : List (String × α)) (k : String) : Bool :=
  m.any (fun p => decide (p.1 = k))

/-- `HashMap::get` (also the lookup done by `get_mut`). -/
def mapFind? (m : List (String × α)) (k : String) : Option α :=
  (m.find? (fun p => decide (p.1 = k))).map (·.2)

/-- Replace the value stored at key `k` (the write through `get_mut`). -/
def mapReplace (m : List (String × α)) (k : String) (v : α) : List (String × α) :=
  m.map (fun p => if p.1 = k then (p.1, v) else p)

/-- `HashMap::insert`: replaces the value if the key is present, otherwise
adds the binding. -/
def mapInsert (m : List (String × α)) (k : String) (v : α) : List (String × α) :=
  if mapContains m k then mapReplace m k v else m ++ [(k, v)]

/-- `HashMap::remove`. -/
def mapRemove (m : List (String × α)) (k : String) : List (String × α) :=
  m.filter (fun p => decide (¬ p.1 = k))

/-! ### Data model (`src/model.rs`) -/

/-- `model.rs` `Note`. Timestamps and the due date are instants (`Int`). -/
structure Note where
  id : String
  title : String
  body : Option String
  tags : List String
  created_at : Int
  updated_at : Int
  due : Option Int
deriving DecidableEq, Repr

/-- `model.rs` `Column`. -/
structure Column where
  id : String
  name : String
  wip_limit : Option Nat
  note_ids : List String
deriving DecidableEq, Repr

/-- `model.rs` `Board`. -/
structure Board where
  name : String
  columns : List Column
  notes : List (String × Note)
deriving DecidableEq, Repr

/-- `model.rs` `BoardError`. -/
inductive BoardError where
  | ColumnNotFound (id : String)
  | NoteNotFound (id : String)
  | NoteLocationMissing (id : String)
  | WipLimitReached (id : String)
deriving DecidableEq, Repr

/-- The `thiserror` display strings, as `anyhow` shows them to the UI. -/
def BoardError.message : BoardError → String
  | .ColumnNotFound id => "column not found: " ++ id
  | .NoteNotFound id => "note not found: " ++ id
  | .NoteLocationMissing id => "note " ++ id ++ " not present in any column"
  | .WipLimitReached id => "wip limit reached for column " ++ id

/-- `Board::find_column_index`. -/
def find_column_index (b : Board) (id : String) : Option Nat :=
  listPosition (fun c => decide (c.id = id)) b.columns

/-- `Board::find_note_column_index`. -/
def find_note_column_index (b : Board) (note_id : String) : Option Nat :=
  listPosition (fun c => c.note_ids.any (fun id => decide (id = note_id))) b.columns

/-- `Board::ensure_wip` (takes `&self`, no mutation). Out-of-range `column_idx`
panics in Rust and is unreachable from its callers, modelled as `ok`. -/
def ensure_wip (b : Board) (column_idx : Nat) : Except BoardError Unit :=
  match b.columns[column_idx]? with
  | none => .ok ()
  | some col =>
    match col.wip_limit with
    | some limit =>
      if limit ≤ col.note_ids.length then .error (.WipLimitReached col.id) else .ok ()
    | none => .ok ()

/-- `Board::update_note`: look up the note, apply the mutator, then stamp
`updated_at` with the current time. -/
def update_note (b : Board) (note_id : String) (f : Note → Note) (now : Int) :
    Except BoardError Unit × Board :=
  match mapFind? b.notes note_id with
  | none => (.error (.NoteNotFound note_id), b)
  | some n =>
    (.ok (), { b with notes := mapReplace b.notes note_id { f n with updated_at := now } })

/-- `Board::touch`: `update_note` with the identity mutator. -/
def touch (b : Board) (note_id : String) (now : Int) : Except BoardError Unit × Board :=
  update_note b note_id (fun n => n) now

/-- `Board::add_note`. -/
def add_note (b : Board) (note : Note) (column_id : String) :
    Except BoardError Unit × Board :=
  match find_column_index b column_id with
  | none => (.error (.ColumnNotFound column_id), b)
  | some target_idx =>
    match ensure_wip b target_idx with
    | .error e => (.error e, b)
    | .ok _ =>
      (.ok (), { b with
        notes := mapInsert b.notes note.id note,
        columns := listModify b.columns target_idx
          (fun c => { c with note_ids := c.note_ids ++ [note.id] }) })

/-- `Board::move_note`. The `retain` on the source column and the `push` on the
destination column are the two sequential `Vec` updates of the source. -/
def move_note (b : Board) (note_id : String) (dest_column_id : String) (now : Int) :
    Except BoardError Unit × Board :=
  if ¬ (mapContains b.notes note_id = true) then (.error (.NoteNotFound note_id), b)
  else
    match find_column_index b dest_column_id with
    | none => (.error (.ColumnNotFound dest_column_id), b)
    | some dest_idx =>
      match find_note_column_index b note_id with
      | none => (.error (.NoteLocationMissing note_id), b)
      | some src_idx =>
        if src_idx = dest_idx then (.ok (), b)
        else
          match ensure_wip b dest_idx with
          | .error e => (.error e, b)
          | .ok _ =>
            let cols :=
              listModify
                (listModify b.columns src_idx
                  (fun c => { c with note_ids := c.note_ids.filter (fun id => decide (¬ id = note_id)) }))
                dest_idx
                (fun c => { c with note_ids := c.note_ids ++ [note_id] })
            touch { b with columns := cols } note_id now

/-- `Note::new` (`created_at` and `updated_at` both set to the same `now`). -/
def Note.new (id title : String) (body : Option String) (tags : List String)
    (due : Option Int) (now : Int) : Note :=
  { id := id, title := title, body := body, tags := tags,
    created_at := now, updated_at := now, due := due }

/-- Board part of `App::delete_note` (`src/ui.rs:1339`): scrub the id from the
first column containing it, then remove it from the mapping. `none` is the
error path (id in no column), which leaves the board untouched. -/
def delete_note_board (b : Board) (note_id : String) : Option Board :=
  match find_note_column_index b note_id with
  | none => none
  | some col_idx =>
    some { b with
      columns := listModify b.columns col_idx
        (fun c => { c with note_ids := c.note_ids.filter (fun id => decide (¬ id = note_id)) }),
      notes := mapRemove b.notes note_id }

/-! ### Board invariants (spec §3) -/

/-- Referential integrity: every id listed in a column exists in the mapping. -/
def RefIntegrity (b : Board) : Prop :=
  ∀ c ∈ b.columns, ∀ id ∈ c.note_ids, mapContains b.notes id = true

instance : DecidablePred RefIntegrity := fun b => by
  unfold RefIntegrity; infer_instance

/-- Does column `i` of the board list `id` among its `note_ids`? -/
def colHas (b : Board) (i : Nat) (id : String) : Bool :=
  match b.columns[i]? with
  | some c => c.note_ids.any (fun x => decide (x = id))
  | none => false

/-- All ids placed in some column. -/
def allIds (b : Board) : List String :=
  (b.columns.map Column.note_ids).flatten

/-- Exclusive placement: no id is listed by two distinct columns. -/
def ExclusiveB (b : Board) : Prop :=
  ∀ i, i < b.columns.length → ∀ j, j < b.columns.length → i ≠ j →
    ∀ id ∈ allIds b, ¬(colHas b i id = true ∧ colHas b j id = true)

instance : DecidablePred ExclusiveB := fun b => by
  unfold ExclusiveB; infer_instance

/-- One successful mutation step, restricted to adds whose note id is not
already placed in some column (the program draws ids from `generate_id` and
spec §9 treats collisions as out of contract). Failed operations leave the
board untouched in the source, so omitting them loses no reachable states. -/
inductive GoodStep : Board → Board → Prop where
  | add (b : Board) (note : Note) (cid : String) (b' : Board)
      (hfresh : ∀ c ∈ b.columns, note.id ∉ c.note_ids)
      (h : add_note b note cid = (.ok (), b')) : GoodStep b b'
  | move (b : Board) (nid did : String) (now : Int) (b' : Board)
      (h : move_note b nid did now = (.ok (), b')) : GoodStep b b'
  | del (b : Board) (nid : String) (b' : Board)
      (h : delete_note_board b nid = some b') : GoodStep b b'

/-! ### Text-field editor (`src/ui.rs` `FieldValue`, `prev_grapheme`)

The buffer is the `String` owned by the field, modelled as its list of
characters; the cursor is the byte offset into its UTF-8 encoding, exactly as
in the source. -/

/-- Rust `char::len_utf8`. -/
def lenUtf8 (c : Char) : Nat :=
  if c.toNat < 0x80 then 1
  else if c.toNat < 0x800 then 2
  else if c.toNat < 0x10000 then 3
  else 4

/-- Byte length of the UTF-8 encoding (`str::len`). -/
def byteLen : List Char → Nat
  | [] => 0
  | c :: cs => lenUtf8 c + byteLen cs

/-- `str::char_indices` starting from byte offset `base`. -/
def charIndicesAux (base : Nat) : List Char → List (Nat × Char)
  | [] => []
  | c :: cs => (base, c) :: charIndicesAux (base + lenUtf8 c) cs

/-- `str::char_indices`. -/
def charIndices (s : List Char) : List (Nat × Char) :=
  charIndicesAux 0 s

/-- The loop body of `prev_grapheme`: walk the char indices keeping the last
index strictly below the cursor. -/
def prevGraphemeAux (prev cursor : Nat) : List (Nat × Char) → Nat
  | [] => prev
  | (idx, _) :: rest => if cursor ≤ idx then prev else prevGraphemeAux idx cursor rest

/-- `ui.rs` `prev_grapheme`. -/
def prev_grapheme (cursor : Nat) (text : List Char) : Nat :=
  if cursor = 0 then 0 else prevGraphemeAux 0 cursor (charIndices text)

/-- `String::drain(lo..hi)` for boundary-aligned `lo`, `hi`: keep exactly the
characters whose starting byte lies outside `[lo, hi)`. -/
def drainBytes (text : List Char) (lo hi : Nat) : List Char :=
  ((charIndices text).filter (fun p => decide (p.1 < lo) || decide (hi ≤ p.1))).map Prod.snd

/-- Split a buffer at a byte offset; `some` exactly when the offset is a
character boundary (`String::insert` panics otherwise). -/
def splitAtByte : List Char → Nat → Option (List Char × List Char)
  | cs, 0 => some ([], cs)
  | [], _ + 1 => none
  | c :: cs, n + 1 =>
    if lenUtf8 c ≤ n + 1 then
      match splitAtByte cs (n + 1 - lenUtf8 c) with
      | some (l, r) => some (c :: l, r)
      | none => none
    else none

/-- `ui.rs` `FieldValue`. -/
structure FieldValue where
  value : List Char
  cursor : Nat
deriving DecidableEq, Repr

/-- `FieldValue::backspace`. -/
def FieldValue.backspace (fv : FieldValue) : FieldValue :=
  if fv.cursor = 0 then fv
  else
    let prev := prev_grapheme fv.cursor fv.value
    { value := drainBytes fv.value prev fv.cursor, cursor := prev }

/-- `FieldValue::insert_char`. `String::insert` panics when the cursor is not
a character boundary; that case (`none`) is unreachable under the boundary
precondition and returns the field unchanged. -/
def FieldValue.insert_char (fv : FieldValue) (ch : Char) : FieldValue :=
  match splitAtByte fv.value fv.cursor with
  | some (l, r) => { value := l ++ ch :: r, cursor := fv.cursor + lenUtf8 ch }
  | none => fv

/-! ### Due-date parsing (`src/ui.rs` `parse_due_string`)

`NaiveDateTime::parse_from_str(trimmed, "%Y.%m.%d@%H:%M")` is modelled after
chrono's parser for that fixed item sequence: each numeric item first skips
leading whitespace, `%Y` accepts an optional sign (unlimited digits when
signed, 1–4 digits otherwise), the other fields accept 1–2 digits, the
literal separators must match exactly, trailing input is an error, and the
collected fields must form a valid calendar date (`from_ymd_opt`, including
chrono's representable year range) and time of day. -/

/-- The Unicode `White_Space` code points — Rust `char::is_whitespace`. -/
def rustWhitespaceCodes : List Nat :=
  [0x09, 0x0A, 0x0B, 0x0C, 0x0D, 0x20, 0x85, 0xA0, 0x1680,
   0x2000, 0x2001, 0x2002, 0x2003, 0x2004, 0x2005, 0x2006, 0x2007,
   0x2008, 0x2009, 0x200A, 0x2028, 0x2029, 0x202F, 0x205F, 0x3000]

/-- Rust `char::is_whitespace`. -/
def isRustWhitespace (c : Char) : Bool :=
  rustWhitespaceCodes.contains c.toNat

/-- Rust `str::trim`. -/
def trimChars (l : List Char) : List Char :=
  ((l.dropWhile isRustWhitespace).reverse.dropWhile isRustWhitespace).reverse

/-- Rust `str::trim` at the `String` level. -/
def trimString (s : String) : String :=
  String.mk (trimChars s.data)

/-- Greedily take up to `max` leading ASCII digits (chrono `scan::number`). -/
def takeDigitsUpTo : Nat → List Char → List Char × List Char
  | 0, cs => ([], cs)
  | _ + 1, [] => ([], [])
  | n + 1, c :: cs =>
    if c.isDigit then
      let p := takeDigitsUpTo n cs
      (c :: p.1, p.2)
    else ([], c :: cs)

/-- Numeric value of a digit string. -/
def digitsToNat (ds : List Char) : Nat :=
  ds.foldl (fun n c => n * 10 + (c.toNat - 48)) 0

/-- chrono `scan::number(s, min, max)`: at least `minD`, at most `maxD`
digits. (chrono's `i64` overflow rejection is subsumed by the year-range
check below — both sides reject such inputs.) -/
def scanNumber (minD maxD : Nat) (cs : List Char) : Option (Nat × List Char) :=
  let p := takeDigitsUpTo maxD cs
  if p.1.length < minD then none else some (digitsToNat p.1, p.2)

/-- chrono's parsing of the signed `%Y` item (`starts_with` on a sign, then
digits: 1–4 without a sign, unlimited with one). -/
def scanYear : List Char → Option (Int × List Char)
  | [] => (scanNumber 1 4 []).map (fun p => ((p.1 : Int), p.2))
  | c :: rest =>
    if c = '-' then (scanNumber 1 rest.length rest).map (fun p => (-(p.1 : Int), p.2))
    else if c = '+' then (scanNumber 1 rest.length rest).map (fun p => ((p.1 : Int), p.2))
    else (scanNumber 1 4 (c :: rest)).map (fun p => ((p.1 : Int), p.2))

/-- chrono literal item: the next character must match exactly. -/
def expectChar (c : Char) : List Char → Option (List Char)
  | [] => none
  | x :: rest => if x = c then some rest else none

/-- Proleptic-Gregorian leap year. -/
def isLeapYear (y : Int) : Bool :=
  decide (y % 4 = 0 ∧ (¬ y % 100 = 0 ∨ y % 400 = 0))

/-- Days in a month of the proleptic Gregorian calendar (0 for an invalid
month number). -/
def daysInMonth (y : Int) (m : Nat) : Nat :=
  match m with
  | 1 => 31
  | 2 => if isLeapYear y then 29 else 28
  | 3 => 31
  | 4 => 30
  | 5 => 31
  | 6 => 30
  | 7 => 31
  | 8 => 31
  | 9 => 30
  | 10 => 31
  | 11 => 30
  | 12 => 31
  | _ => 0

/-- Days since 1970-01-01 of a civil date (Howard Hinnant's `days_from_civil`,
the same proleptic-Gregorian counting chrono uses). -/
def daysFromCivil (y : Int) (m d : Nat) : Int :=
  let y1 : Int := if m ≤ 2 then y - 1 else y
  let era : Int := (if 0 ≤ y1 then y1 else y1 - 399) / 400
  let yoe : Int := y1 - era * 400
  let mp : Int := ((m : Int) + 9) % 12
  let doy : Int := (153 * mp + 2) / 5 + (d : Int) - 1
  let doe : Int := yoe * 365 + yoe / 4 - yoe / 100 + doy
  era * 146097 + doe - 719468

/-- The instant (minutes since epoch, UTC wall clock) denoted by parsed
fields — `Utc.from_utc_datetime` of the parsed `NaiveDateTime`. -/
def dueInstant (y : Int) (m d h mi : Nat) : Int :=
  daysFromCivil y m d * 1440 + (h : Int) * 60 + (mi : Int)

/-- chrono `NaiveDateTime::parse_from_str` with format `"%Y.%m.%d@%H:%M"`:
field scanning, full-consumption check, and calendar validation
(`from_ymd_opt` bounds the year to chrono's representable range
`-262144..=262143`, hour `< 24`, minute `< 60`). -/
def parseDueFormat (cs0 : List Char) : Option (Int × Nat × Nat × Nat × Nat) := do
  let s1 := cs0.dropWhile isRustWhitespace
  let (y, s2) ← scanYear s1
  let s3 ← expectChar '.' s2
  let s4 := s3.dropWhile isRustWhitespace
  let (m, s5) ← scanNumber 1 2 s4
  let s6 ← expectChar '.' s5
  let s7 := s6.dropWhile isRustWhitespace
  let (d, s8) ← scanNumber 1 2 s7
  let s9 ← expectChar '@' s8
  let s10 := s9.dropWhile isRustWhitespace
  let (h, s11) ← scanNumber 1 2 s10
  let s12 ← expectChar ':' s11
  let s13 := s12.dropWhile isRustWhitespace
  let (mi, s14) ← scanNumber 1 2 s13
  if s14 = [] ∧ 1 ≤ m ∧ m ≤ 12 ∧ 1 ≤ d ∧ d ≤ daysInMonth y m ∧
      h ≤ 23 ∧ mi ≤ 59 ∧ -262144 ≤ y ∧ y ≤ 262143 then
    some (y, m, d, h, mi)
  else
    none

/-- The character of a decimal digit (`0`–`9`; arguments are always `< 10`). -/
def digitChar (n : Nat) : Char :=
  match n with
  | 0 => '0'
  | 1 => '1'
  | 2 => '2'
  | 3 => '3'
  | 4 => '4'
  | 5 => '5'
  | 6 => '6'
  | 7 => '7'
  | 8 => '8'
  | _ => '9'

/-- Two-digit zero-padded rendering (`MM`, `DD`, `hh`, `mm` of the spec's
fixed pattern). -/
def pad2 (n : Nat) : List Char :=
  [digitChar (n / 10), digitChar (n % 10)]

/-- Four-digit zero-padded rendering (`YYYY` of the spec's fixed pattern). -/
def pad4 (n : Nat) : List Char :=
  [digitChar (n / 1000), digitChar (n / 100 % 10), digitChar (n / 10 % 10), digitChar (n % 10)]

/-- A string of the spec's fixed pattern `YYYY.MM.DD@hh:mm`, as characters.
This is the spec-side description of "matches the fixed pattern"; it is not a
translation of program code. -/
def renderChars (y m d h mi : Nat) : List Char :=
  pad4 y ++ '.' :: (pad2 m ++ '.' :: (pad2 d ++ '@' :: (pad2 h ++ ':' :: pad2 mi)))

/-- `renderChars` as a `String`. -/
def renderDue (y m d h mi : Nat) : String :=
  String.mk (renderChars y m d h mi)

/-- `ui.rs` `parse_due_string`. -/
def parse_due_string (input : String) : Except String (Option Int) :=
  let trimmed := trimChars input.data
  if trimmed = [] then .ok none
  else
    match parseDueFormat trimmed with
    | some (y, m, d, h, mi) => .ok (some (dueInstant y m d h mi))
    | none => .error ("invalid date format (use YYYY.MM.DD@hh:mm): " ++ String.mk trimmed)

/-! ### Form submit (`src/ui.rs` `create_note_from_form`) -/

/-- `str::split` on a separator predicate (keeps empty tokens, as Rust does). -/
def splitOnSep : List Char → List (List Char)
  | [] => [[]]
  | c :: cs =>
    let r := splitOnSep cs
    if isRustWhitespace c || decide (c = ',') then [] :: r
    else
      match r with
      | t :: ts => (c :: t) :: ts
      | [] => [[c]]

/-- `ui.rs` `parse_tags`: split on whitespace or comma, drop blank tokens,
trim the rest. -/
def parse_tags (input : String) : List String :=
  ((splitOnSep input.data).filter (fun t => decide (¬ trimChars t = []))).map
    (fun t => String.mk (trimChars t))

/-- The four text values of a `NoteForm` (cursors are irrelevant to submit). -/
structure FormVals where
  title : String
  body : String
  tags : String
  due : String
deriving DecidableEq, Repr

/-- `App::create_note_from_form`, on the state it touches: the board and the
board-view `selected_note`. `generate_id()` is the opaque `id` argument,
`Utc::now()` is `now`; `persist` (saving plus status/bounds upkeep) is an
external effect not represented here. Every early `return Err` happens before
`add_note`, so those cases leave the board unchanged. -/
def create_note_from_form (b : Board) (selected_column selected_note : Nat)
    (form : FormVals) (id : String) (now : Int) : Except String Unit × Board × Nat :=
  let title := trimString form.title
  if title = "" then (.error "title is required", b, selected_note)
  else
    match b.columns[selected_column]? with
    | none => (.error "no columns available to place the note", b, selected_note)
    | some col =>
      let tags := parse_tags form.tags
      match parse_due_string form.due with
      | .error e => (.error e, b, selected_note)
      | .ok due =>
        let body := if trimString form.body = "" then none else some form.body
        let note := Note.new id title body tags due now
        match add_note b note col.id with
        | (.error e, b1) => (.error e.message, b1, selected_note)
        | (.ok _, b1) =>
          let sel :=
            match b1.columns[selected_column]? with
            | some c => c.note_ids.length - 1
            | none => 0
          (.ok (), b1, sel)

/-! ### Board-view move actions (`src/ui.rs` `move_selected` / `move_to_column`)

`AppB` is the slice of `App` state these actions read and write while the
Board view is active: the board, the board-view selection, and the status
line. `persist` saves to disk and re-clamps the timeline/project views; on
this slice its effect is the status assignment. -/

/-- Board-view slice of `App`. -/
structure AppB where
  board : Board
  selected_column : Nat
  selected_note : Nat
  status : String
deriving DecidableEq, Repr

/-- `App::current_board_note` (what `current_note` dispatches to in the Board
view). -/
def current_board_note (a : AppB) : Option (String × Note) := do
  let col ← a.board.columns[a.selected_column]?
  let nid ← col.note_ids[a.selected_note]?
  let n ← mapFind? a.board.notes nid
  pure (nid, n)

/-- Rust `Ord::clamp` on `isize` (callers guarantee `lo ≤ hi`). -/
def clampInt (x lo hi : Int) : Int :=
  max lo (min x hi)

/-- `App::move_to_column`. -/
def move_to_column (a : AppB) (target_idx : Nat) (now : Int) :
    Except String Unit × AppB :=
  if a.board.columns = [] then (.ok (), a)
  else
    match a.board.columns[a.selected_column]? with
    | none => (.ok (), a)
    | some current_col =>
      match current_col.note_ids[a.selected_note]? with
      | none => (.ok (), a)
      | some note_id =>
        match a.board.columns[target_idx]? with
        | none => (.error "unknown destination column", a)
        | some destc =>
          match move_note a.board note_id destc.id now with
          | (.error e, b1) => (.error e.message, { a with board := b1 })
          | (.ok _, b1) =>
            let sel :=
              match b1.columns[target_idx]? with
              | some c => c.note_ids.length - 1
              | none => 0
            (.ok (), { a with
                        board := b1
                        selected_column := target_idx
                        selected_note := sel })

/-- `App::move_selected` in the Board view. `delta` is the `isize` argument
(`1` for forward, `-1` for back); `(len as isize).saturating_sub(1)` is plain
subtraction for any realizable length. -/
def move_selected (a : AppB) (delta now : Int) : AppB :=
  if a.board.columns = [] then { a with status := "No columns to move between" }
  else if (current_board_note a).isNone then
    { a with status := "No note selected to move" }
  else
    let maxI : Int := (a.board.columns.length : Int) - 1
    let target : Nat := (clampInt ((a.selected_column : Int) + delta) 0 maxI).toNat
    if target = a.selected_column then a
    else
      match move_to_column a target now with
      | (.error e, a1) => { a1 with status := "Move failed: " ++ e }
      | (.ok _, a1) =>
        let dest :=
          match a1.board.columns[target]? with
          | some c => c.name
          | none => ""
        { a1 with status := "Moved to " ++ dest }

/-- Distinct columns carry distinct ids (the spec's §3 convention; the code
tolerates duplicates by first-match but the board files it writes never
contain them). -/
def UniqueColumnIds (b : Board) : Prop :=
  (b.columns.map Column.id).Nodup

instance : DecidablePred UniqueColumnIds := fun b => by
  unfold UniqueColumnIds; infer_instance

/-! ### Concrete boards used by counterexamples and witnesses -/

/-- An empty "To Do" column. -/
def colTodo : Column :=
  { id := "todo", name := "To Do", wip_limit := none, note_ids := [] }

/-- An empty "Doing" column. -/
def colDoing : Column :=
  { id := "doing", name := "Doing", wip_limit := none, note_ids := [] }

/-- A note with id `"a"`. -/
def noteA : Note :=
  { id := "a", title := "t", body := none, tags := [], created_at := 0,
    updated_at := 0, due := none }

/-- Two empty columns, no notes. -/
def cexB0 : Board :=
  { name := "b", columns := [colTodo, colDoing], notes := [] }

/-- `cexB0` after adding note `"a"` to `"todo"`. -/
def cexB1 : Board :=
  (add_note cexB0 noteA "todo").2

/-- `cexB1` after adding a note with the same id `"a"` to `"doing"`: the id is
now listed by two columns while the mapping holds a single entry. -/
def cexB2 : Board :=
  (add_note cexB1 noteA "doing").2

/-- `cexB2` after the delete path scrubs `"a"`: the mapping entry is gone but
only the first column listing `"a"` was cleaned. -/
def cexB3 : Board :=
  match delete_note_board cexB2 "a" with
  | some b => b
  | none => cexB0

/-- A board whose only column is at its WIP limit and holds note `"a"`. -/
def wipBoard : Board :=
  { name := "w",
    columns := [{ id := "doing", name := "Doing", wip_limit := some 1, note_ids := ["a"] }],
    notes := [("a", noteA)] }

/-- A note with id `"bb"`. -/
def noteB : Note :=
  { id := "bb", title := "u", body := none, tags := [], created_at := 0,
    updated_at := 0, due := none }

/-- Board view with a single column and the note selected: the selection sits
in the last (and first) column. -/
def cexApp1 : AppB :=
  { board :=
      { name := "b",
        columns := [{ id := "todo", name := "To Do", wip_limit := none, note_ids := ["a"] }],
        notes := [("a", noteA)] },
    selected_column := 0,
    selected_note := 0,
    status := "s0" }

/-- Board view where the adjacent (forward) column is at its WIP limit. -/
def cexApp2 : AppB :=
  { board :=
      { name := "b",
        columns :=
          [{ id := "todo", name := "To Do", wip_limit := none, note_ids := ["a"] },
           { id := "doing", name := "Doing", wip_limit := some 1, note_ids := ["bb"] }],
        notes := [("a", noteA), ("bb", noteB)] },
    selected_column := 0,
    selected_note := 0,
    status := "s0" }

/-- Board view with two ordinary columns and the note selected in the first. -/
def wApp : AppB :=
  { board :=
      { name := "b",
        columns :=
          [{ id := "todo", name := "To Do", wip_limit := none, note_ids := ["a"] },
           { id := "doing", name := "Doing", wip_limit := none, note_ids := ["bb"] }],
        notes := [("a", noteA), ("bb", noteB)] },
    selected_column := 0,
    selected_note := 0,
    status := "s0" }

/-! ### Viewport scroller (`src/ui.rs` `adjust_offset`) -/

/-- `adjust_offset`: Nat subtraction is Rust's `saturating_sub`. -/
def adjust_offset (selected current_offset viewport scrolloff len : Nat) : Nat :=
  if viewport = 0 ∨ len = 0 then 0
  else
    let max_offset := len - viewport
    let margin := min scrolloff (viewport - 1)
    let offset0 := min current_offset max_offset
    let offset1 :=
      if selected < offset0 + margin then selected - margin
      else
        let upper := offset0 + (viewport - 1) - margin
        if upper < selected then selected + (margin + 1) - viewport
        else offset0
    min offset1 max_offset

/-! ## Supporting lemmas -/

theorem listPosition_some_get {p : α → Bool} {l : List α} {i : Nat}
    (h : listPosition p l = some i) : ∃ x, l[i]? = some x ∧ p x = true := by
  induction l generalizing i with
  | nil => simp [listPosition] at h
  | cons x xs ih =>
    by_cases hx : p x
    · simp [listPosition, hx] at h
      subst h
      exact ⟨x, by simp, hx⟩
    · simp [listPosition, hx] at h
      cases hpos : listPosition p xs with
      | none => rw [hpos] at h; simp at h
      | some j =>
        rw [hpos] at h
        simp at h
        obtain ⟨x', hx', hp'⟩ := ih hpos
        subst h
        exact ⟨x', by simpa using hx', hp'⟩

theorem mapContains_iff_find? {m : List (String × α)} {k : String} :
    mapContains m k = true ↔ ∃ v, mapFind? m k = some v := by
  induction m with
  | nil => simp [mapContains, mapFind?]
  | cons p m ih =>
    by_cases h : p.1 = k
    · simp [mapContains, mapFind?, List.find?, h]
    · simp only [mapContains, List.any_cons, mapFind?, List.find?, h, decide_eq_true_eq,
        decide_False, Bool.false_or]
      exact ih

theorem mapFind?_mapReplace_self {m : List (String × α)} {k : String} {n : α}
    (h : mapFind? m k = some n) (v : α) :
    mapFind? (mapReplace m k v) k = some v := by
  induction m with
  | nil => simp [mapFind?] at h
  | cons p m ih =>
    by_cases hk : p.1 = k
    · simp [mapFind?, mapReplace, List.find?, hk]
    · simp only [mapFind?, mapReplace, List.map_cons, List.find?, if_neg hk] at *
      rw [decide_eq_false hk] at *
      exact ih h

/-! ## Claim theorems -/

/-- C3: viewport scroller contract. If `viewport = 0` or `len = 0` the result
is `0`; otherwise, whenever `selected < len` and `0 < viewport`, the returned
offset keeps the selection inside the window and stays within
`[0, max 0 (len - viewport)]`, for every margin and incoming offset. -/
theorem C3_adjust_offset_contract (selected current_offset viewport scrolloff len : Nat) :
    (viewport = 0 ∨ len = 0 →
      adjust_offset selected current_offset viewport scrolloff len = 0) ∧
    (selected < len → 0 < viewport →
      adjust_offset selected current_offset viewport scrolloff len ≤ selected ∧
      selected ≤ adjust_offset selected current_offset viewport scrolloff len + viewport - 1 ∧
      adjust_offset selected current_offset viewport scrolloff len ≤ max 0 (len - viewport)) := by
  constructor
  · intro h
    unfold adjust_offset
    rw [if_pos h]
  · intro hsel hvp
    unfold adjust_offset
    rw [if_neg (by omega)]
    dsimp only
    split_ifs <;> refine ⟨by omega, by omega, by omega⟩

/-- C3 witness: the degenerate case at `viewport = 0` and a generic case. -/
theorem C3_adjust_offset_contract_witness :
    adjust_offset 5 0 0 1 10 = 0 ∧
    (adjust_offset 5 0 3 1 10 ≤ 5 ∧ 5 ≤ adjust_offset 5 0 3 1 10 + 3 - 1 ∧
      adjust_offset 5 0 3 1 10 ≤ max 0 (10 - 3)) :=
  ⟨(C3_adjust_offset_contract 5 0 0 1 10).1 (Or.inl rfl),
   (C3_adjust_offset_contract 5 0 3 1 10).2 (by decide) (by decide)⟩

/-- C4: `add_note` atomicity. With no matching column it fails with
`ColumnNotFound` and the board is unchanged; with the target column at (or
over) a set WIP limit it fails with `WipLimitReached` and the board is
unchanged; otherwise it inserts the note into the mapping and appends its id
to the target column. -/
theorem C4_add_note_atomicity (b : Board) (note : Note) (cid : String) :
    (find_column_index b cid = none →
      add_note b note cid = (.error (.ColumnNotFound cid), b)) ∧
    (∀ i col lim, find_column_index b cid = some i → b.columns[i]? = some col →
      col.wip_limit = some lim → lim ≤ col.note_ids.length →
      add_note b note cid = (.error (.WipLimitReached col.id), b)) ∧
    (∀ i col, find_column_index b cid = some i → b.columns[i]? = some col →
      (∀ lim, col.wip_limit = some lim → col.note_ids.length < lim) →
      add_note b note cid = (.ok (), { b with
        notes := mapInsert b.notes note.id note,
        columns := listModify b.columns i
          (fun c => { c with note_ids := c.note_ids ++ [note.id] }) })) := by
  refine ⟨?_, ?_, ?_⟩
  · intro h
    unfold add_note
    rw [h]
  · intro i col lim hf hg hw hlen
    have hwip : ensure_wip b i = .error (.WipLimitReached col.id) := by
      simp [ensure_wip, hg, hw, hlen]
    simp [add_note, hf, hwip]
  · intro i col hf hg hok
    have hwip : ensure_wip b i = .ok () := by
      cases hcl : col.wip_limit with
      | none => simp [ensure_wip, hg, hcl]
      | some lim =>
        have := hok lim hcl
        have hlt : ¬ lim ≤ col.note_ids.length := by omega
        simp [ensure_wip, hg, hcl, hlt]
    simp [add_note, hf, hwip]

/-- C4 witness: the three branches at concrete boards. -/
theorem C4_add_note_atomicity_witness :
    add_note cexB0 noteA "missing" = (.error (.ColumnNotFound "missing"), cexB0) ∧
    add_note wipBoard noteA "doing" =
      (.error (.WipLimitReached "doing"), wipBoard) ∧
    add_note cexB0 noteA "todo" = (.ok (), cexB1) :=
  ⟨(C4_add_note_atomicity cexB0 noteA "missing").1 (by decide),
   (C4_add_note_atomicity wipBoard noteA "doing").2.1 0
     { id := "doing", name := "Doing", wip_limit := some 1, note_ids := ["a"] } 1
     (by decide) (by decide) (by decide) (by decide),
   by
    have h := (C4_add_note_atomicity cexB0 noteA "todo").2.2 0 colTodo
      (by decide) (by decide) (by intro lim hlim; simp [colTodo] at hlim)
    rw [h]
    decide⟩

theorem move_note_noop_eq {b : Board} {nid did : String} {i : Nat} (now : Int)
    (hmem : mapContains b.notes nid = true)
    (hdest : find_column_index b did = some i)
    (hsrc : find_note_column_index b nid = some i) :
    move_note b nid did now = (.ok (), b) := by
  unfold move_note
  rw [hmem, hdest, hsrc]
  simp

/-- C5: when the note already sits in the destination column, `move_note`
succeeds, leaves the placement as is, and doing it twice equals doing it
once; no hypothesis about the destination's WIP limit is needed (the witness
exercises a destination at its limit). -/
theorem C5_move_note_noop_idempotent (b : Board) (nid did : String) (i : Nat)
    (now now2 : Int)
    (hmem : mapContains b.notes nid = true)
    (hdest : find_column_index b did = some i)
    (hsrc : find_note_column_index b nid = some i) :
    move_note b nid did now = (.ok (), b) ∧
    move_note (move_note b nid did now).2 nid did now2 = (.ok (), b) := by
  have h1 := move_note_noop_eq now hmem hdest hsrc
  refine ⟨h1, ?_⟩
  rw [h1]
  exact move_note_noop_eq now2 hmem hdest hsrc

/-- C5 witness: a destination column at its WIP limit. -/
theorem C5_move_note_noop_idempotent_witness :
    move_note wipBoard "a" "doing" 5 = (.ok (), wipBoard) ∧
    move_note (move_note wipBoard "a" "doing" 5).2 "a" "doing" 7 =
      (.ok (), wipBoard) :=
  C5_move_note_noop_idempotent wipBoard "a" "doing" 0 5 7
    (by decide) (by decide) (by decide)

/-- C6: `update_note` fails with `NoteNotFound` exactly when the id is absent
(leaving the board unchanged), and otherwise rewrites the stored note to the
mutated note with `updated_at := now` — also when the mutator is the
identity. -/
theorem C6_update_note_contract (b : Board) (nid : String) (f : Note → Note) (now : Int) :
    (mapFind? b.notes nid = none →
      update_note b nid f now = (.error (.NoteNotFound nid), b)) ∧
    ((update_note b nid f now).1 = .error (.NoteNotFound nid) →
      mapFind? b.notes nid = none) ∧
    (∀ n, mapFind? b.notes nid = some n →
      update_note b nid f now =
        (.ok (), { b with notes := mapReplace b.notes nid { f n with updated_at := now } }) ∧
      mapFind? (update_note b nid f now).2.notes nid = some { f n with updated_at := now }) := by
  refine ⟨?_, ?_, ?_⟩
  · intro h
    unfold update_note
    rw [h]
  · intro h
    cases hfind : mapFind? b.notes nid with
    | none => rfl
    | some n =>
      unfold update_note at h
      rw [hfind] at h
      simp at h
  · intro n hfind
    have heq : update_note b nid f now =
        (.ok (), { b with notes := mapReplace b.notes nid { f n with updated_at := now } }) := by
      unfold update_note
      rw [hfind]
    refine ⟨heq, ?_⟩
    rw [heq]
    exact mapFind?_mapReplace_self hfind _

/-- C6 witness: an absent id and a present one (identity mutator). -/
theorem C6_update_note_contract_witness :
    update_note cexB1 "zz" (fun n => n) 9 = (.error (.NoteNotFound "zz"), cexB1) ∧
    update_note cexB1 "a" (fun n => n) 9 =
      (.ok (), { cexB1 with
        notes := mapReplace cexB1.notes "a" { noteA with updated_at := 9 } }) :=
  ⟨(C6_update_note_contract cexB1 "zz" (fun n => n) 9).1 (by decide),
   ((C6_update_note_contract cexB1 "a" (fun n => n) 9).2.2 noteA (by decide)).1⟩

/-- C10: the implicit frame of the `move_note` no-op path: when the note is
already in the destination column the whole board is returned unchanged — in
particular the stored note, hence its `updated_at`, is exactly the one from
before the call. -/
theorem C10_move_note_noop_frame (b : Board) (nid did : String) (i : Nat) (now : Int)
    (hmem : mapContains b.notes nid = true)
    (hdest : find_column_index b did = some i)
    (hsrc : find_note_column_index b nid = some i) :
    move_note b nid did now = (.ok (), b) ∧
    mapFind? (move_note b nid did now).2.notes nid = mapFind? b.notes nid := by
  have h1 := move_note_noop_eq now hmem hdest hsrc
  exact ⟨h1, by rw [h1]⟩

/-- C10 witness. -/
theorem C10_move_note_noop_frame_witness :
    move_note wipBoard "a" "doing" 11 = (.ok (), wipBoard) ∧
    mapFind? (move_note wipBoard "a" "doing" 11).2.notes "a" =
      mapFind? wipBoard.notes "a" :=
  C10_move_note_noop_frame wipBoard "a" "doing" 0 11
    (by decide) (by decide) (by decide)

theorem digitChar_isDigit (k : Nat) : (digitChar k).isDigit = true := by
  unfold digitChar
  split <;> decide

theorem digitChar_not_ws (k : Nat) : isRustWhitespace (digitChar k) = false := by
  unfold digitChar
  split <;> decide

theorem digitChar_ne_dash (k : Nat) : ¬ digitChar k = '-' := by
  unfold digitChar
  split <;> decide

theorem digitChar_ne_plus (k : Nat) : ¬ digitChar k = '+' := by
  unfold digitChar
  split <;> decide

theorem digitChar_val {k : Nat} (h : k < 10) : (digitChar k).toNat - 48 = k := by
  interval_cases k <;> decide

theorem dropWhile_eq_self_of_all {p : α → Bool} {l : List α}
    (h : ∀ c ∈ l, p c = false) : l.dropWhile p = l := by
  cases l with
  | nil => rfl
  | cons x xs => simp [List.dropWhile_cons, h x (by simp)]

theorem trimChars_eq_self {l : List Char} (h : ∀ c ∈ l, isRustWhitespace c = false) :
    trimChars l = l := by
  unfold trimChars
  rw [dropWhile_eq_self_of_all h,
    dropWhile_eq_self_of_all (fun c hc => h c (List.mem_reverse.mp hc)),
    List.reverse_reverse]

theorem renderChars_not_ws (y m d h mi : Nat) :
    ∀ c ∈ renderChars y m d h mi, isRustWhitespace c = false := by
  intro c hc
  simp [renderChars, pad4, pad2] at hc
  rcases hc with rfl | rfl | rfl | rfl | rfl | rfl | rfl | rfl | rfl | rfl | rfl | rfl | rfl |
    rfl | rfl | rfl <;> first | exact digitChar_not_ws _ | rfl

theorem scanNumber_pad2 {n : Nat} (h : n ≤ 99) (rest : List Char) :
    scanNumber 1 2 (pad2 n ++ rest) = some (n, rest) := by
  have v1 := digitChar_val (show n / 10 < 10 by omega)
  have v2 := digitChar_val (show n % 10 < 10 by omega)
  simp [scanNumber, pad2, takeDigitsUpTo, digitChar_isDigit, digitsToNat, v1, v2]
  omega

theorem scanNumber_pad4 {n : Nat} (h : n ≤ 9999) (rest : List Char) :
    scanNumber 1 4 (pad4 n ++ rest) = some (n, rest) := by
  have v1 := digitChar_val (show n / 1000 < 10 by omega)
  have v2 := digitChar_val (show n / 100 % 10 < 10 by omega)
  have v3 := digitChar_val (show n / 10 % 10 < 10 by omega)
  have v4 := digitChar_val (show n % 10 < 10 by omega)
  simp [scanNumber, pad4, takeDigitsUpTo, digitChar_isDigit, digitsToNat, v1, v2, v3, v4]
  omega

theorem scanYear_pad4 {y : Nat} (h : y ≤ 9999) (rest : List Char) :
    scanYear (pad4 y ++ rest) = some ((y : Int), rest) := by
  have hs := scanNumber_pad4 h rest
  simp only [pad4, List.cons_append, List.nil_append] at hs ⊢
  simp [scanYear, digitChar_ne_dash, digitChar_ne_plus, hs]

theorem dropWhile_ws_pad2 (n : Nat) (rest : List Char) :
    (pad2 n ++ rest).dropWhile isRustWhitespace = pad2 n ++ rest := by
  simp [pad2, List.dropWhile_cons, digitChar_not_ws]

theorem dropWhile_ws_pad4 (n : Nat) (rest : List Char) :
    (pad4 n ++ rest).dropWhile isRustWhitespace = pad4 n ++ rest := by
  simp [pad4, List.dropWhile_cons, digitChar_not_ws]

theorem daysInMonth_le_31 (y : Int) (m : Nat) : daysInMonth y m ≤ 31 := by
  unfold daysInMonth
  split <;> first | omega | split <;> omega

theorem parseDueFormat_render {y m d h mi : Nat} (hy : y ≤ 9999) (hm1 : 1 ≤ m)
    (hm2 : m ≤ 12) (hd1 : 1 ≤ d) (hd2 : d ≤ daysInMonth (y : Int) m) (hh : h ≤ 23)
    (hmi : mi ≤ 59) :
    parseDueFormat (renderChars y m d h mi) = some ((y : Int), m, d, h, mi) := by
  have hd99 : d ≤ 99 := le_trans hd2 (le_trans (daysInMonth_le_31 _ _) (by omega))
  have sy := scanYear_pad4 hy
  have sm := scanNumber_pad2 (show m ≤ 99 by omega)
  have sd := scanNumber_pad2 hd99
  have sh2 := scanNumber_pad2 (show h ≤ 99 by omega)
  have smi : scanNumber 1 2 (pad2 mi) = some (mi, []) := by
    simpa using scanNumber_pad2 (show mi ≤ 99 by omega) []
  have dwmi : (pad2 mi).dropWhile isRustWhitespace = pad2 mi := by
    simpa using dropWhile_ws_pad2 mi []
  have hy1 : -262144 ≤ (y : Int) := by omega
  have hy2 : (y : Int) ≤ 262143 := by omega
  simp [parseDueFormat, renderChars, dropWhile_ws_pad4, dropWhile_ws_pad2, dwmi, sy, sm, sd,
    sh2, smi, expectChar, hm1, hm2, hd1, hd2, hh, hmi, hy1, hy2]

/-- C8 (amended): due-date parsing on submit. A string that is empty after
trimming parses as "no due date"; a string of the fixed pattern
`YYYY.MM.DD@hh:mm` denoting a valid date and time parses to the corresponding
instant; and when the (trimmed, non-empty) string is not accepted by the
format parser, `parse_due_string` returns an error and the whole submit is
rejected with the board unchanged. -/
theorem C8_due_parse_contract :
    (∀ s : String, trimChars s.data = [] → parse_due_string s = .ok none) ∧
    (∀ y m d h mi : Nat, y ≤ 9999 → 1 ≤ m → m ≤ 12 → 1 ≤ d →
      d ≤ daysInMonth (y : Int) m → h ≤ 23 → mi ≤ 59 →
      parse_due_string (renderDue y m d h mi) = .ok (some (dueInstant (y : Int) m d h mi))) ∧
    (∀ s : String, ¬ trimChars s.data = [] → parseDueFormat (trimChars s.data) = none →
      parse_due_string s =
        .error ("invalid date format (use YYYY.MM.DD@hh:mm): " ++ String.mk (trimChars s.data)) ∧
      ∀ (b : Board) (selc seln : Nat) (form : FormVals) (id : String) (now : Int),
        form.due = s →
        (∃ msg, (create_note_from_form b selc seln form id now).1 = .error msg) ∧
        (create_note_from_form b selc seln form id now).2.1 = b) := by
  refine ⟨?_, ?_, ?_⟩
  · intro s h
    simp [parse_due_string, h]
  · intro y m d h mi hy hm1 hm2 hd1 hd2 hh hmi
    have hpf := parseDueFormat_render hy hm1 hm2 hd1 hd2 hh hmi
    have htrim : trimChars (renderChars y m d h mi) = renderChars y m d h mi :=
      trimChars_eq_self (renderChars_not_ws y m d h mi)
    have hne : ¬ renderChars y m d h mi = [] := by simp [renderChars, pad4]
    simp [parse_due_string, renderDue, htrim, hne, hpf]
  · intro s hne hpf
    have herr : parse_due_string s =
        .error ("invalid date format (use YYYY.MM.DD@hh:mm): " ++ String.mk (trimChars s.data)) := by
      simp [parse_due_string, hne, hpf]
    refine ⟨herr, ?_⟩
    intro b selc seln form id now hdue
    by_cases ht : trimString form.title = ""
    · simp [create_note_from_form, ht]
    · cases hcol : b.columns[selc]? with
      | none => simp [create_note_from_form, ht, hcol]
      | some col => simp [create_note_from_form, ht, hcol, hdue, herr]

/-- C8 counterexample: `" "` is non-empty and does not match the pattern, yet
`parse_due_string` yields "no due date" rather than an error. -/
theorem C8_counterexample_whitespace :
    parse_due_string " " = .ok none ∧ ¬ (" " = "") ∧
    parseDueFormat (String.data " ") = none := by
  refine ⟨by decide, by decide, by decide⟩

/-- C8 witness: the three contract branches at concrete inputs. -/
theorem C8_due_parse_contract_witness :
    parse_due_string "" = .ok none ∧
    parse_due_string (renderDue 2024 1 2 3 4) =
      .ok (some (dueInstant ((2024 : Nat) : Int) 1 2 3 4)) ∧
    parse_due_string "x" =
      .error ("invalid date format (use YYYY.MM.DD@hh:mm): " ++
        String.mk (trimChars (String.data "x"))) ∧
    (create_note_from_form cexB0 0 0 ⟨"t", "", "", "x"⟩ "id1" 0).2.1 = cexB0 := by
  obtain ⟨p1, p2, p3⟩ := C8_due_parse_contract
  refine ⟨p1 "" (by decide),
    p2 2024 1 2 3 4 (by decide) (by decide) (by decide) (by decide) (by decide)
      (by decide) (by decide), ?_, ?_⟩
  · exact (p3 "x" (by decide) (by decide)).1
  · exact ((p3 "x" (by decide) (by decide)).2 cexB0 0 0 ⟨"t", "", "", "x"⟩ "id1" 0 rfl).2

theorem lenUtf8_pos (c : Char) : 1 ≤ lenUtf8 c := by
  unfold lenUtf8
  split_ifs <;> omega

theorem splitAtByte_some : ∀ {v : List Char} {n : Nat} {l r : List Char},
    splitAtByte v n = some (l, r) → v = l ++ r ∧ n = byteLen l := by
  intro v
  induction v with
  | nil =>
    intro n l r h
    cases n with
    | zero =>
      simp [splitAtByte] at h
      obtain ⟨rfl, rfl⟩ := h
      exact ⟨rfl, rfl⟩
    | succ n => simp [splitAtByte] at h
  | cons c cs ih =>
    intro n l r h
    cases n with
    | zero =>
      simp [splitAtByte] at h
      obtain ⟨rfl, rfl⟩ := h
      exact ⟨rfl, rfl⟩
    | succ n =>
      simp only [splitAtByte] at h
      by_cases hle : lenUtf8 c ≤ n + 1
      · rw [if_pos hle] at h
        cases hs : splitAtByte cs (n + 1 - lenUtf8 c) with
        | none => rw [hs] at h; simp at h
        | some p =>
          obtain ⟨l', r'⟩ := p
          rw [hs] at h
          simp at h
          obtain ⟨rfl, rfl⟩ := h
          obtain ⟨heq, hlen⟩ := ih hs
          refine ⟨by simp [heq], ?_⟩
          simp [byteLen]
          omega
      · rw [if_neg hle] at h
        simp at h

theorem charIndicesAux_append (l m : List Char) (base : Nat) :
    charIndicesAux base (l ++ m) =
      charIndicesAux base l ++ charIndicesAux (base + byteLen l) m := by
  induction l generalizing base with
  | nil => simp [charIndicesAux, byteLen]
  | cons c cs ih =>
    simp [charIndicesAux, byteLen, ih, Nat.add_assoc]

theorem charIndicesAux_ge {ys : List Char} {base : Nat} :
    ∀ p ∈ charIndicesAux base ys, base ≤ p.1 := by
  induction ys generalizing base with
  | nil => simp [charIndicesAux]
  | cons c cs ih =>
    intro p hp
    simp only [charIndicesAux, List.mem_cons] at hp
    rcases hp with rfl | hp
    · exact le_refl _
    · have := ih p hp
      omega

theorem charIndicesAux_lt {ys : List Char} {base : Nat} :
    ∀ p ∈ charIndicesAux base ys, p.1 < base + byteLen ys := by
  induction ys generalizing base with
  | nil => simp [charIndicesAux]
  | cons c cs ih =>
    intro p hp
    simp only [charIndicesAux, List.mem_cons] at hp
    have hc := lenUtf8_pos c
    rcases hp with rfl | hp
    · simp [byteLen]
      omega
    · have := ih p hp
      simp [byteLen]
      omega

theorem charIndicesAux_map_snd (ys : List Char) (base : Nat) :
    (charIndicesAux base ys).map Prod.snd = ys := by
  induction ys generalizing base with
  | nil => rfl
  | cons c cs ih => simp [charIndicesAux, ih]

theorem prevGraphemeAux_all_ge {ys : List (Nat × Char)} {prev cursor : Nat}
    (h : ∀ p ∈ ys, cursor ≤ p.1) : prevGraphemeAux prev cursor ys = prev := by
  cases ys with
  | nil => rfl
  | cons p rest =>
    obtain ⟨idx, c⟩ := p
    simp [prevGraphemeAux, h ⟨idx, c⟩ (by simp)]

theorem prevGraphemeAux_insert (ch : Char) (r : List Char) :
    ∀ (l : List Char) (base prev cursor : Nat),
      cursor = base + byteLen l + lenUtf8 ch →
      prevGraphemeAux prev cursor (charIndicesAux base (l ++ ch :: r)) =
        base + byteLen l := by
  intro l
  induction l with
  | nil =>
    intro base prev cursor hcur
    have hw := lenUtf8_pos ch
    simp only [List.nil_append, charIndicesAux, prevGraphemeAux]
    rw [if_neg (by simp [byteLen] at hcur; omega)]
    rw [prevGraphemeAux_all_ge]
    · simp [byteLen]
    · intro p hp
      have := charIndicesAux_ge p hp
      simp [byteLen] at hcur
      omega
  | cons c cs ih =>
    intro base prev cursor hcur
    have hwc := lenUtf8_pos c
    have hw := lenUtf8_pos ch
    simp only [List.cons_append, charIndicesAux, prevGraphemeAux, List.append_eq]
    rw [if_neg (by simp [byteLen] at hcur; omega)]
    have := ih (base + lenUtf8 c) base cursor (by simp [byteLen] at hcur ⊢; omega)
    rw [this]
    simp [byteLen]
    omega

theorem drainBytes_insert (l r : List Char) (ch : Char) :
    drainBytes (l ++ ch :: r) (byteLen l) (byteLen l + lenUtf8 ch) = l ++ r := by
  have hw := lenUtf8_pos ch
  unfold drainBytes charIndices
  rw [charIndicesAux_append, List.filter_append]
  have h1 : (charIndicesAux 0 l).filter
      (fun p => decide (p.1 < byteLen l) || decide (byteLen l + lenUtf8 ch ≤ p.1)) =
      charIndicesAux 0 l := by
    rw [List.filter_eq_self]
    intro p hp
    have := charIndicesAux_lt p hp
    simp
    omega
  have h2 : (charIndicesAux (0 + byteLen l) (ch :: r)).filter
      (fun p => decide (p.1 < byteLen l) || decide (byteLen l + lenUtf8 ch ≤ p.1)) =
      charIndicesAux (byteLen l + lenUtf8 ch) r := by
    have hcond : (decide (byteLen l < byteLen l) ||
        decide (byteLen l + lenUtf8 ch ≤ byteLen l)) = false := by
      simp
      omega
    simp only [Nat.zero_add, charIndicesAux, List.filter_cons, hcond]
    simp only [Bool.false_eq_true, if_false]
    rw [List.filter_eq_self]
    intro p hp
    have := charIndicesAux_ge p hp
    simp
    omega
  rw [h1, h2, List.map_append, charIndicesAux_map_snd, charIndicesAux_map_snd]

/-- C7: inserting any character (multi-byte included) at any character
boundary and then backspacing restores the original buffer and cursor. -/
theorem C7_insert_backspace_roundtrip (fv : FieldValue) (ch : Char) (l r : List Char)
    (hsplit : splitAtByte fv.value fv.cursor = some (l, r)) :
    (fv.insert_char ch).backspace = fv := by
  obtain ⟨v, c⟩ := fv
  obtain ⟨hval, hcur⟩ := splitAtByte_some hsplit
  simp only at hval hcur
  subst hval hcur
  have hw := lenUtf8_pos ch
  unfold FieldValue.insert_char
  rw [hsplit]
  unfold FieldValue.backspace
  simp only
  rw [if_neg (by omega)]
  have hprev : prev_grapheme (byteLen l + lenUtf8 ch) (l ++ ch :: r) = byteLen l := by
    unfold prev_grapheme
    rw [if_neg (by omega)]
    have hins := prevGraphemeAux_insert ch r l 0 0 (byteLen l + lenUtf8 ch) (by omega)
    simpa [charIndices] using hins
  rw [hprev, drainBytes_insert]

/-- C7 witness: a two-byte character inserted mid-buffer. -/
theorem C7_insert_backspace_roundtrip_witness :
    splitAtByte (FieldValue.mk ['a', 'b'] 1).value (FieldValue.mk ['a', 'b'] 1).cursor =
      some (['a'], ['b']) ∧
    ((FieldValue.mk ['a', 'b'] 1).insert_char 'é').backspace = FieldValue.mk ['a', 'b'] 1 :=
  ⟨by decide, C7_insert_backspace_roundtrip (FieldValue.mk ['a', 'b'] 1) 'é' ['a'] ['b']
    (by decide)⟩

theorem listModify_getElem? (l : List α) (i : Nat) (f : α → α) (j : Nat) :
    (listModify l i f)[j]? = if j = i then (l[j]?).map f else l[j]? := by
  induction l generalizing i j with
  | nil => simp [listModify]
  | cons x xs ih =>
    cases i with
    | zero =>
      cases j with
      | zero => simp [listModify]
      | succ j => simp [listModify]
    | succ i =>
      cases j with
      | zero => simp [listModify]
      | succ j => simpa [listModify] using ih i j

theorem listModify_length (l : List α) (i : Nat) (f : α → α) :
    (listModify l i f).length = l.length := by
  induction l generalizing i with
  | nil => rfl
  | cons x xs ih => cases i <;> simp [listModify, ih]

theorem mapContains_mapReplace (m : List (String × α)) (k id : String) (v : α) :
    mapContains (mapReplace m k v) id = mapContains m id := by
  induction m with
  | nil => rfl
  | cons p m ih =>
    simp only [mapContains, mapReplace, List.map_cons, List.any_cons] at ih ⊢
    by_cases h : p.1 = k
    · rw [if_pos h]
      rw [ih]
    · rw [if_neg h]
      rw [ih]

theorem mapContains_mapInsert (m : List (String × α)) (k id : String) (v : α) :
    mapContains (mapInsert m k v) id = true ↔ (mapContains m id = true ∨ id = k) := by
  unfold mapInsert
  by_cases h : mapContains m k
  · rw [if_pos h, mapContains_mapReplace]
    constructor
    · exact Or.inl
    · rintro (hc | rfl)
      · exact hc
      · exact h
  · rw [if_neg h]
    unfold mapContains
    rw [List.any_append]
    simp only [List.any_cons, List.any_nil, Bool.or_false, Bool.or_eq_true, decide_eq_true_eq]
    exact or_congr Iff.rfl eq_comm

theorem mapContains_mapRemove (m : List (String × α)) (k id : String) :
    mapContains (mapRemove m k) id = true ↔ (mapContains m id = true ∧ ¬ id = k) := by
  unfold mapContains mapRemove
  simp only [List.any_eq_true, List.mem_filter, decide_eq_true_eq]
  constructor
  · rintro ⟨x, ⟨hx, hk⟩, hid⟩
    subst hid
    exact ⟨⟨x, hx, rfl⟩, hk⟩
  · rintro ⟨⟨x, hx, hid⟩, hk⟩
    subst hid
    exact ⟨x, ⟨hx, hk⟩, rfl⟩

theorem colHas_iff {b : Board} {i : Nat} {id : String} :
    colHas b i id = true ↔ ∃ c, b.columns[i]? = some c ∧ id ∈ c.note_ids := by
  unfold colHas
  cases h : b.columns[i]? with
  | none => simp
  | some c => simp [List.any_eq_true]

theorem colHas_lt {b : Board} {i : Nat} {id : String} (h : colHas b i id = true) :
    i < b.columns.length := by
  obtain ⟨c, hc, _⟩ := colHas_iff.mp h
  exact (List.getElem?_eq_some.mp hc).1

theorem mem_allIds {b : Board} {c : Column} {id : String}
    (hc : c ∈ b.columns) (hid : id ∈ c.note_ids) : id ∈ allIds b := by
  unfold allIds
  simp only [List.mem_flatten, List.mem_map]
  exact ⟨c.note_ids, ⟨c, hc, rfl⟩, hid⟩

theorem colHas_mem_allIds {b : Board} {i : Nat} {id : String}
    (h : colHas b i id = true) : id ∈ allIds b := by
  obtain ⟨c, hc, hid⟩ := colHas_iff.mp h
  exact mem_allIds (List.getElem?_mem hc) hid

theorem find_note_column_mem {b : Board} {nid : String} {i : Nat}
    (h : find_note_column_index b nid = some i) :
    ∃ c, b.columns[i]? = some c ∧ nid ∈ c.note_ids := by
  obtain ⟨c, hc, hp⟩ := listPosition_some_get h
  refine ⟨c, hc, ?_⟩
  simpa [List.any_eq_true] using hp

theorem exclusiveB_of_columns_eq {b b' : Board} (h : b'.columns = b.columns)
    (he : ExclusiveB b) : ExclusiveB b' := by
  unfold ExclusiveB allIds colHas at he ⊢
  rw [h]
  exact he

theorem touch_snd (b : Board) (nid : String) (now : Int) :
    (touch b nid now).2.columns = b.columns ∧
    ∀ id, mapContains (touch b nid now).2.notes id = mapContains b.notes id := by
  unfold touch update_note
  cases h : mapFind? b.notes nid with
  | none => simp
  | some n => simp [mapContains_mapReplace]

theorem add_note_ok_elim {b b' : Board} {note : Note} {cid : String}
    (h : add_note b note cid = (.ok (), b')) :
    ∃ t, find_column_index b cid = some t ∧
      b'.notes = mapInsert b.notes note.id note ∧
      b'.columns = listModify b.columns t
        (fun c => { c with note_ids := c.note_ids ++ [note.id] }) := by
  unfold add_note at h
  cases hf : find_column_index b cid with
  | none =>
    simp only [hf] at h
    simp at h
  | some t =>
    simp only [hf] at h
    cases hw : ensure_wip b t with
    | error e =>
      simp only [hw] at h
      simp at h
    | ok u =>
      simp only [hw] at h
      simp at h
      subst h
      exact ⟨t, rfl, rfl, rfl⟩

theorem move_note_ok_elim {b b' : Board} {nid did : String} {now : Int}
    (h : move_note b nid did now = (.ok (), b')) :
    b' = b ∨
    ∃ s t, find_note_column_index b nid = some s ∧ find_column_index b did = some t ∧
      ¬ s = t ∧ mapContains b.notes nid = true ∧
      b'.columns = listModify (listModify b.columns s
          (fun c => { c with note_ids := c.note_ids.filter (fun id => decide (¬ id = nid)) })) t
          (fun c => { c with note_ids := c.note_ids ++ [nid] }) ∧
      (∀ id, mapContains b'.notes id = mapContains b.notes id) := by
  unfold move_note at h
  by_cases hm : mapContains b.notes nid = true
  · rw [if_neg (not_not_intro hm)] at h
    cases hf : find_column_index b did with
    | none =>
      simp only [hf] at h
      simp at h
    | some t =>
      simp only [hf] at h
      cases hs : find_note_column_index b nid with
      | none =>
        simp only [hs] at h
        simp at h
      | some s =>
        simp only [hs] at h
        by_cases hst : s = t
        · rw [if_pos hst] at h
          simp at h
          exact Or.inl h.symm
        · rw [if_neg hst] at h
          cases hw : ensure_wip b t with
          | error e =>
            simp only [hw] at h
            simp at h
          | ok u =>
            simp only [hw] at h
            have hb' := congrArg Prod.snd h
            dsimp only at hb'
            refine Or.inr ⟨s, t, rfl, rfl, hst, hm, ?_, ?_⟩
            · rw [← hb', (touch_snd _ nid now).1]
            · intro id
              rw [← hb', (touch_snd _ nid now).2 id]
  · rw [if_pos hm] at h
    simp at h

theorem delete_note_elim {b b' : Board} {nid : String}
    (h : delete_note_board b nid = some b') :
    ∃ ci, find_note_column_index b nid = some ci ∧
      b'.columns = listModify b.columns ci
        (fun c => { c with note_ids := c.note_ids.filter (fun id => decide (¬ id = nid)) }) ∧
      b'.notes = mapRemove b.notes nid := by
  unfold delete_note_board at h
  cases hf : find_note_column_index b nid with
  | none =>
    simp only [hf] at h
    simp at h
  | some ci =>
    simp only [hf] at h
    have h2 := Option.some.inj h
    subst h2
    exact ⟨ci, rfl, rfl, rfl⟩

theorem excl_preserved_add {b b' : Board} {note : Note} {cid : String}
    (hexc : ExclusiveB b) (hfresh : ∀ c ∈ b.columns, note.id ∉ c.note_ids)
    (h : add_note b note cid = (.ok (), b')) : ExclusiveB b' := by
  obtain ⟨t, hf, hnotes, hcols⟩ := add_note_ok_elim h
  have hlen : b'.columns.length = b.columns.length := by
    rw [hcols, listModify_length]
  have hch : ∀ i id, colHas b' i id = true →
      colHas b i id = true ∨ (i = t ∧ id = note.id) := by
    intro i id hc
    obtain ⟨c', hc', hid⟩ := colHas_iff.mp hc
    rw [hcols, listModify_getElem?] at hc'
    by_cases hit : i = t
    · rw [if_pos hit] at hc'
      cases hb : b.columns[i]? with
      | none => rw [hb] at hc'; simp at hc'
      | some c0 =>
        rw [hb] at hc'
        simp at hc'
        rw [← hc'] at hid
        simp only [List.mem_append, List.mem_singleton] at hid
        rcases hid with hid | rfl
        · exact Or.inl (colHas_iff.mpr ⟨c0, hb, hid⟩)
        · exact Or.inr ⟨hit, rfl⟩
    · rw [if_neg hit] at hc'
      exact Or.inl (colHas_iff.mpr ⟨c', hc', hid⟩)
  unfold ExclusiveB at hexc ⊢
  intro i hi j hj hij id hmem hcontra
  obtain ⟨hci, hcj⟩ := hcontra
  rcases hch i id hci with hbi | ⟨rfl, rfl⟩
  · rcases hch j id hcj with hbj | ⟨rfl, rfl⟩
    · exact hexc i (by omega) j (by omega) hij id (colHas_mem_allIds hbi) ⟨hbi, hbj⟩
    · obtain ⟨c, hc, hidc⟩ := colHas_iff.mp hbi
      exact hfresh c (List.getElem?_mem hc) hidc
  · rcases hch j note.id hcj with hbj | ⟨rfl, _⟩
    · obtain ⟨c, hc, hidc⟩ := colHas_iff.mp hbj
      exact hfresh c (List.getElem?_mem hc) hidc
    · exact hij rfl

theorem excl_preserved_move {b b' : Board} {nid did : String} {now : Int}
    (hexc : ExclusiveB b) (h : move_note b nid did now = (.ok (), b')) :
    ExclusiveB b' := by
  rcases move_note_ok_elim h with rfl | ⟨s, t, hs, hf, hst, hm, hcols, hnotes⟩
  · exact hexc
  · obtain ⟨csrc, hcsrc, hnidmem⟩ := find_note_column_mem hs
    have hsrcHas : colHas b s nid = true := colHas_iff.mpr ⟨csrc, hcsrc, hnidmem⟩
    have hslen : s < b.columns.length := colHas_lt hsrcHas
    have hlen : b'.columns.length = b.columns.length := by
      rw [hcols, listModify_length, listModify_length]
    have hch : ∀ i id, colHas b' i id = true →
        (colHas b i id = true ∧ ¬(i = s ∧ id = nid)) ∨ (i = t ∧ id = nid) := by
      intro i id hc
      obtain ⟨c', hc', hid⟩ := colHas_iff.mp hc
      rw [hcols, listModify_getElem?] at hc'
      by_cases hit : i = t
      · rw [if_pos hit, listModify_getElem?, if_neg (by omega : ¬ i = s)] at hc'
        cases hb : b.columns[i]? with
        | none => rw [hb] at hc'; simp at hc'
        | some c0 =>
          rw [hb] at hc'
          simp at hc'
          rw [← hc'] at hid
          simp only [List.mem_append, List.mem_singleton] at hid
          rcases hid with hid | rfl
          · exact Or.inl ⟨colHas_iff.mpr ⟨c0, hb, hid⟩, by omega⟩
          · exact Or.inr ⟨hit, rfl⟩
      · rw [if_neg hit, listModify_getElem?] at hc'
        by_cases his : i = s
        · rw [if_pos his] at hc'
          cases hb : b.columns[i]? with
          | none => rw [hb] at hc'; simp at hc'
          | some c0 =>
            rw [hb] at hc'
            simp at hc'
            rw [← hc'] at hid
            simp [List.mem_filter] at hid
            exact Or.inl ⟨colHas_iff.mpr ⟨c0, hb, hid.1⟩, fun hcon => hid.2 hcon.2⟩
        · rw [if_neg his] at hc'
          exact Or.inl ⟨colHas_iff.mpr ⟨c', hc', hid⟩, fun hcon => his hcon.1⟩
    have honly : ∀ i, colHas b' i nid = true → i = t := by
      intro i hc
      rcases hch i nid hc with ⟨hbi, hno⟩ | ⟨hit, _⟩
      · by_cases his : i = s
        · exact absurd ⟨his, rfl⟩ hno
        · have hilen : i < b.columns.length := colHas_lt hbi
          exact absurd ⟨hbi, hsrcHas⟩
            (hexc i hilen s hslen his nid (colHas_mem_allIds hbi))
      · exact hit
    unfold ExclusiveB at hexc ⊢
    intro i hi j hj hij id hmem hcontra
    obtain ⟨hci, hcj⟩ := hcontra
    by_cases hidn : id = nid
    · subst hidn
      exact hij ((honly i hci).trans (honly j hcj).symm)
    · rcases hch i id hci with ⟨hbi, _⟩ | ⟨_, hc⟩
      · rcases hch j id hcj with ⟨hbj, _⟩ | ⟨_, hc⟩
        · exact hexc i (by omega) j (by omega) hij id (colHas_mem_allIds hbi) ⟨hbi, hbj⟩
        · exact hidn hc
      · exact hidn hc

theorem excl_preserved_update {b b' : Board} {nid : String} {f : Note → Note}
    {now : Int} {r : Except BoardError Unit}
    (hexc : ExclusiveB b) (h : update_note b nid f now = (r, b')) : ExclusiveB b' := by
  have hcols : b'.columns = b.columns := by
    unfold update_note at h
    cases hfind : mapFind? b.notes nid with
    | none =>
      simp only [hfind] at h
      have := congrArg Prod.snd h
      simp at this
      rw [← this]
    | some n =>
      simp only [hfind] at h
      have := congrArg Prod.snd h
      simp at this
      rw [← this]
  exact exclusiveB_of_columns_eq hcols hexc

theorem ref_preserved_add {b b' : Board} {note : Note} {cid : String}
    (href : RefIntegrity b) (h : add_note b note cid = (.ok (), b')) :
    RefIntegrity b' := by
  obtain ⟨t, hf, hnotes, hcols⟩ := add_note_ok_elim h
  unfold RefIntegrity at href ⊢
  intro c' hc' id hid
  obtain ⟨j, hj⟩ := List.mem_iff_getElem?.mp hc'
  rw [hcols, listModify_getElem?] at hj
  rw [hnotes]
  refine (mapContains_mapInsert _ _ _ _).mpr ?_
  by_cases hjt : j = t
  · rw [if_pos hjt] at hj
    cases hb : b.columns[j]? with
    | none => rw [hb] at hj; simp at hj
    | some c0 =>
      rw [hb] at hj
      simp at hj
      rw [← hj] at hid
      simp only [List.mem_append, List.mem_singleton] at hid
      rcases hid with hid | rfl
      · exact Or.inl (href c0 (List.getElem?_mem hb) id hid)
      · exact Or.inr rfl
  · rw [if_neg hjt] at hj
    exact Or.inl (href c' (List.getElem?_mem hj) id hid)

theorem ref_preserved_move {b b' : Board} {nid did : String} {now : Int}
    (href : RefIntegrity b) (h : move_note b nid did now = (.ok (), b')) :
    RefIntegrity b' := by
  rcases move_note_ok_elim h with rfl | ⟨s, t, hs, hf, hst, hm, hcols, hnotes⟩
  · exact href
  · unfold RefIntegrity at href ⊢
    intro c' hc' id hid
    rw [hnotes id]
    obtain ⟨j, hj⟩ := List.mem_iff_getElem?.mp hc'
    rw [hcols, listModify_getElem?] at hj
    by_cases hjt : j = t
    · rw [if_pos hjt, listModify_getElem?, if_neg (by omega : ¬ j = s)] at hj
      cases hb : b.columns[j]? with
      | none => rw [hb] at hj; simp at hj
      | some c0 =>
        rw [hb] at hj
        simp at hj
        rw [← hj] at hid
        simp only [List.mem_append, List.mem_singleton] at hid
        rcases hid with hid | rfl
        · exact href c0 (List.getElem?_mem hb) id hid
        · exact hm
    · rw [if_neg hjt, listModify_getElem?] at hj
      by_cases hjs : j = s
      · rw [if_pos hjs] at hj
        cases hb : b.columns[j]? with
        | none => rw [hb] at hj; simp at hj
        | some c0 =>
          rw [hb] at hj
          simp at hj
          rw [← hj] at hid
          simp at hid
          exact href c0 (List.getElem?_mem hb) id hid.1
      · rw [if_neg hjs] at hj
        exact href c' (List.getElem?_mem hj) id hid

theorem inv_preserved_del {b b' : Board} {nid : String}
    (href : RefIntegrity b) (hexc : ExclusiveB b)
    (h : delete_note_board b nid = some b') : RefIntegrity b' ∧ ExclusiveB b' := by
  obtain ⟨ci, hfi, hcols, hnotes⟩ := delete_note_elim h
  obtain ⟨csrc, hcsrc, hnidmem⟩ := find_note_column_mem hfi
  have hciHas : colHas b ci nid = true := colHas_iff.mpr ⟨csrc, hcsrc, hnidmem⟩
  have hcilen : ci < b.columns.length := colHas_lt hciHas
  have hch : ∀ i id, colHas b' i id = true →
      colHas b i id = true ∧ (i = ci → ¬ id = nid) := by
    intro i id hc
    obtain ⟨c', hc', hid⟩ := colHas_iff.mp hc
    rw [hcols, listModify_getElem?] at hc'
    by_cases hic : i = ci
    · rw [if_pos hic] at hc'
      cases hb : b.columns[i]? with
      | none => rw [hb] at hc'; simp at hc'
      | some c0 =>
        rw [hb] at hc'
        simp at hc'
        rw [← hc'] at hid
        simp at hid
        exact ⟨colHas_iff.mpr ⟨c0, hb, hid.1⟩, fun _ => hid.2⟩
    · rw [if_neg hic] at hc'
      exact ⟨colHas_iff.mpr ⟨c', hc', hid⟩, fun hcon => absurd hcon hic⟩
  constructor
  · unfold RefIntegrity at href ⊢
    intro c' hc' id hid
    obtain ⟨j, hj⟩ := List.mem_iff_getElem?.mp hc'
    have hcj : colHas b' j id = true := colHas_iff.mpr ⟨c', hj, hid⟩
    obtain ⟨hbj, hjci⟩ := hch j id hcj
    rw [hnotes]
    refine (mapContains_mapRemove _ _ _).mpr ?_
    obtain ⟨c0, hc0, hid0⟩ := colHas_iff.mp hbj
    refine ⟨href c0 (List.getElem?_mem hc0) id hid0, ?_⟩
    intro hidn
    by_cases hjc : j = ci
    · exact hjci hjc hidn
    · subst hidn
      have hjlen : j < b.columns.length := colHas_lt hbj
      exact hexc j hjlen ci hcilen hjc id (colHas_mem_allIds hbj) ⟨hbj, hciHas⟩
  · have hlen : b'.columns.length = b.columns.length := by
      rw [hcols, listModify_length]
    unfold ExclusiveB at hexc ⊢
    intro i hi j hj hij id hmem hcontra
    obtain ⟨hci, hcj⟩ := hcontra
    have h1 := (hch i id hci).1
    have h2 := (hch j id hcj).1
    exact hexc i (by omega) j (by omega) hij id (colHas_mem_allIds h1) ⟨h1, h2⟩

/-- C1 (amended): referential integrity is preserved along every sequence of
successful `add_note` / `move_note` / delete steps, starting from a board
that satisfies referential integrity *and* exclusive placement, provided each
added note's id is not already listed by some column (`GoodStep`). Failed
operations do not change the board in the source, so they are identity steps.
Without the freshness/exclusivity proviso the property is false — see the
counterexample, where adding the same id twice and deleting it leaves a
dangling id. -/
theorem C1_referential_integrity_reachable (b b' : Board)
    (hinv : RefIntegrity b ∧ ExclusiveB b)
    (hreach : Relation.ReflTransGen GoodStep b b') :
    RefIntegrity b' ∧ ExclusiveB b' := by
  induction hreach with
  | refl => exact hinv
  | tail hab hstep ih =>
    obtain ⟨href, hexc⟩ := ih
    cases hstep with
    | add bm note cid hfresh h =>
      exact ⟨ref_preserved_add href h, excl_preserved_add hexc hfresh h⟩
    | move bm nid did now h =>
      exact ⟨ref_preserved_move href h, excl_preserved_move hexc h⟩
    | del bm nid h =>
      exact inv_preserved_del href hexc h

/-- C1 witness: one fresh add from the empty two-column board. -/
theorem C1_referential_integrity_reachable_witness :
    RefIntegrity cexB1 ∧ ExclusiveB cexB1 :=
  C1_referential_integrity_reachable cexB0 cexB1 (by decide)
    (Relation.ReflTransGen.single
      (GoodStep.add cexB0 noteA "todo" cexB1 (by decide) (by decide)))

/-- C1 counterexample: from a board satisfying the invariant, `add_note` of
the same id into two different columns (both succeed — the code never checks
for an already-placed id) followed by the delete path leaves the second
column referencing an id that is gone from the mapping. -/
theorem C1_counterexample_duplicate_add :
    (RefIntegrity cexB0 ∧ ExclusiveB cexB0) ∧
    add_note cexB0 noteA "todo" = (.ok (), cexB1) ∧
    add_note cexB1 noteA "doing" = (.ok (), cexB2) ∧
    delete_note_board cexB2 "a" = some cexB3 ∧
    ¬ RefIntegrity cexB3 :=
  ⟨by decide, by decide, by decide, by decide, by decide⟩

/-- C2 (amended): exclusive placement is preserved by `move_note` and
`update_note` unconditionally, and by `add_note` provided the added note's id
is not already listed by some column. Without that proviso the property is
false — see the counterexample. -/
theorem C2_exclusive_placement_preserved (b : Board) (hexc : ExclusiveB b) :
    (∀ (note : Note) (cid : String) (b1 : Board),
      (∀ c ∈ b.columns, note.id ∉ c.note_ids) →
      add_note b note cid = (.ok (), b1) → ExclusiveB b1) ∧
    (∀ (nid did : String) (now : Int) (b2 : Board),
      move_note b nid did now = (.ok (), b2) → ExclusiveB b2) ∧
    (∀ (nid : String) (f : Note → Note) (now : Int) (r : Except BoardError Unit)
      (b3 : Board), update_note b nid f now = (r, b3) → ExclusiveB b3) := by
  refine ⟨?_, ?_, ?_⟩
  · intro note cid b1 hfresh h
    exact excl_preserved_add hexc hfresh h
  · intro nid did now b2 h
    exact excl_preserved_move hexc h
  · intro nid f now r b3 h
    exact excl_preserved_update hexc h

/-- C2 witness: the three primitives at concrete boards. -/
theorem C2_exclusive_placement_preserved_witness :
    ExclusiveB cexB1 ∧ ExclusiveB wipBoard ∧
    ExclusiveB (update_note cexB1 "a" (fun n => n) 3).2 :=
  ⟨(C2_exclusive_placement_preserved cexB0 (by decide)).1 noteA "todo" cexB1
      (by decide) (by decide),
   (C2_exclusive_placement_preserved wipBoard (by decide)).2.1 "a" "doing" 5 wipBoard
      (by decide),
   (C2_exclusive_placement_preserved cexB1 (by decide)).2.2 "a" (fun n => n) 3
      (update_note cexB1 "a" (fun n => n) 3).1
      (update_note cexB1 "a" (fun n => n) 3).2 rfl⟩

/-- C2 counterexample: adding a note whose id is already placed in another
column succeeds and produces a board where the id is listed by two columns. -/
theorem C2_counterexample_duplicate_add :
    ExclusiveB cexB1 ∧
    add_note cexB1 noteA "doing" = (.ok (), cexB2) ∧
    ¬ ExclusiveB cexB2 :=
  ⟨by decide, by decide, by decide⟩

theorem listPosition_eq_of_unique {p : α → Bool} {l : List α} {i : Nat} {x : α}
    (hx : l[i]? = some x) (hpx : p x = true)
    (huniq : ∀ j y, l[j]? = some y → p y = true → j = i) :
    listPosition p l = some i := by
  induction l generalizing i with
  | nil => simp at hx
  | cons a as ih =>
    cases i with
    | zero =>
      simp at hx
      subst hx
      simp [listPosition, hpx]
    | succ i =>
      have hpa : p a = false := by
        by_contra hcon
        have h0 := huniq 0 a (by simp) (by simpa using hcon)
        simp at h0
      simp only [listPosition, hpa, Bool.false_eq_true, if_false]
      have hrec := ih (show as[i]? = some x by simpa using hx) ?_
      · rw [hrec]
        rfl
      · intro j y hj hy
        have := huniq (j + 1) y (by simpa using hj) hy
        omega

theorem nodup_getElem?_inj {l : List β} (hnd : l.Nodup) {i j : Nat} {x : β}
    (hi : l[i]? = some x) (hj : l[j]? = some x) : i = j := by
  induction l generalizing i j with
  | nil => simp at hi
  | cons a as ih =>
    obtain ⟨hna, hnd'⟩ := List.nodup_cons.mp hnd
    cases i with
    | zero =>
      cases j with
      | zero => rfl
      | succ j =>
        simp at hi
        subst hi
        simp at hj
        exact absurd (List.getElem?_mem hj) hna
    | succ i =>
      cases j with
      | zero =>
        simp at hj
        subst hj
        simp at hi
        exact absurd (List.getElem?_mem hi) hna
      | succ j =>
        simp only [List.getElem?_cons_succ] at hi hj
        have := ih hnd' hi hj
        omega

theorem unique_column_ids_inj {b : Board} (h : UniqueColumnIds b) {i j : Nat}
    {x y : Column} (hi : b.columns[i]? = some x) (hj : b.columns[j]? = some y)
    (hxy : x.id = y.id) : i = j := by
  have hi' : (b.columns.map Column.id)[i]? = some x.id := by
    rw [List.getElem?_map, hi]
    rfl
  have hj' : (b.columns.map Column.id)[j]? = some x.id := by
    rw [List.getElem?_map, hj, hxy]
    rfl
  exact nodup_getElem?_inj h hi' hj'

theorem current_board_note_elim {a : AppB} {nid : String} {n : Note}
    (h : current_board_note a = some (nid, n)) :
    ∃ csrc, a.board.columns[a.selected_column]? = some csrc ∧
      csrc.note_ids[a.selected_note]? = some nid ∧
      mapFind? a.board.notes nid = some n := by
  unfold current_board_note at h
  cases hc : a.board.columns[a.selected_column]? with
  | none => simp [hc] at h
  | some csrc =>
    simp only [hc, Option.bind_eq_bind, Option.some_bind] at h
    cases hn : csrc.note_ids[a.selected_note]? with
    | none => simp [hn] at h
    | some nid0 =>
      simp only [hn, Option.some_bind] at h
      cases hm : mapFind? a.board.notes nid0 with
      | none => simp [hm] at h
      | some n0 =>
        simp only [hm, Option.some_bind, Option.pure_def, Option.some_inj] at h
        obtain ⟨rfl, rfl⟩ := Prod.ext_iff.mp h
        exact ⟨csrc, rfl, hn, hm⟩

theorem touch_ok {b : Board} {nid : String} {now : Int}
    (hm : mapContains b.notes nid = true) :
    touch b nid now = (.ok (), (touch b nid now).2) := by
  obtain ⟨v, hv⟩ := mapContains_iff_find?.mp hm
  unfold touch update_note
  simp only [hv]

theorem move_note_ok_intro {b : Board} {nid did : String} (now : Int) {s t : Nat}
    (hm : mapContains b.notes nid = true)
    (hf : find_column_index b did = some t)
    (hs : find_note_column_index b nid = some s)
    (hst : ¬ s = t)
    (hw : ensure_wip b t = .ok ()) :
    ∃ b', move_note b nid did now = (.ok (), b') ∧
      b'.columns = listModify (listModify b.columns s
        (fun c => { c with note_ids := c.note_ids.filter (fun id => decide (¬ id = nid)) })) t
        (fun c => { c with note_ids := c.note_ids ++ [nid] }) := by
  unfold move_note
  rw [if_neg (not_not_intro hm)]
  simp only [hf, hs, if_neg hst, hw]
  refine ⟨_, touch_ok hm, ?_⟩
  rw [(touch_snd _ nid now).1]

/-- C9 (amended): board-view forward/back move, assuming the spec §3
conventions that column ids are pairwise distinct and placement is exclusive.
With no columns, or nothing selected, the board is unchanged and a status
message is set. When the clamped target equals the current column (the
selection is already at that edge) the action is a complete no-op — the
status line is *not* touched, unlike the claim's wording. Otherwise the move
is attempted: if the destination's WIP limit blocks it, the board is
unchanged and a failure message is set (the claim's wording ignores this
case); if it succeeds, the note is moved to the adjacent column and the
selection follows it. -/
theorem C9_board_move_selected (a : AppB) (delta now : Int)
    (hids : UniqueColumnIds a.board) (hexc : ExclusiveB a.board) :
    (a.board.columns = [] →
      move_selected a delta now = { a with status := "No columns to move between" }) ∧
    (¬ a.board.columns = [] → current_board_note a = none →
      move_selected a delta now = { a with status := "No note selected to move" }) ∧
    (∀ nid n, current_board_note a = some (nid, n) →
      ∀ target, target = (clampInt ((a.selected_column : Int) + delta) 0
          ((a.board.columns.length : Int) - 1)).toNat →
      (target = a.selected_column → move_selected a delta now = a) ∧
      (¬ target = a.selected_column →
        ∀ e, ensure_wip a.board target = .error e →
          move_selected a delta now = { a with status := "Move failed: " ++ e.message }) ∧
      (¬ target = a.selected_column → ensure_wip a.board target = .ok () →
        ∃ b' cdest,
          a.board.columns[target]? = some cdest ∧
          move_note a.board nid cdest.id now = (.ok (), b') ∧
          move_selected a delta now =
            { board := b'
              selected_column := target
              selected_note := cdest.note_ids.length
              status := "Moved to " ++ cdest.name } ∧
          b'.columns[target]? = some { cdest with note_ids := cdest.note_ids ++ [nid] } ∧
          (cdest.note_ids ++ [nid])[cdest.note_ids.length]? = some nid ∧
          (∃ csrc2, b'.columns[a.selected_column]? = some csrc2 ∧
            nid ∉ csrc2.note_ids))) := by
  refine ⟨?_, ?_, ?_⟩
  · intro hempty
    unfold move_selected
    rw [if_pos hempty]
  · intro hne hnone
    unfold move_selected
    rw [if_neg hne]
    simp only [hnone, Option.isNone_none, if_true]
  · intro nid n hcur target htarget
    obtain ⟨csrc, hoc, hnid, hfindn⟩ := current_board_note_elim hcur
    have hm : mapContains a.board.notes nid = true :=
      mapContains_iff_find?.mpr ⟨n, hfindn⟩
    have hselc_lt : a.selected_column < a.board.columns.length :=
      (List.getElem?_eq_some.mp hoc).1
    have hne : ¬ a.board.columns = [] := by
      intro hcon
      rw [hcon] at hoc
      simp at hoc
    have hnid_mem : nid ∈ csrc.note_ids := List.getElem?_mem hnid
    have hsrcHas : colHas a.board a.selected_column nid = true :=
      colHas_iff.mpr ⟨csrc, hoc, hnid_mem⟩
    have hfn : find_note_column_index a.board nid = some a.selected_column := by
      apply listPosition_eq_of_unique hoc
      · simp only [List.any_eq_true, decide_eq_true_eq]
        exact ⟨nid, hnid_mem, rfl⟩
      · intro j y hj hy
        simp only [List.any_eq_true, decide_eq_true_eq] at hy
        obtain ⟨x, hx, rfl⟩ := hy
        by_contra hjne
        have hjlen : j < a.board.columns.length := (List.getElem?_eq_some.mp hj).1
        have hjHas : colHas a.board j x = true := colHas_iff.mpr ⟨y, hj, hx⟩
        unfold ExclusiveB at hexc
        exact hexc j hjlen a.selected_column hselc_lt hjne x
          (colHas_mem_allIds hjHas) ⟨hjHas, hsrcHas⟩
    have hnone_false : (current_board_note a).isNone = false := by
      rw [hcur]
      rfl
    refine ⟨?_, ?_, ?_⟩
    · intro heq
      unfold move_selected
      rw [if_neg hne]
      simp only [hnone_false, Bool.false_eq_true, if_false]
      rw [← htarget, if_pos heq]
    · intro hneq e hwe
      have hselne : ¬ a.selected_column = target := fun hcon => hneq hcon.symm
      have htlt : target < a.board.columns.length := by
        subst htarget
        unfold clampInt
        omega
      cases hcd : a.board.columns[target]? with
      | none =>
        rw [List.getElem?_eq_none_iff] at hcd
        omega
      | some cdest =>
        have hfcd : find_column_index a.board cdest.id = some target := by
          apply listPosition_eq_of_unique hcd
          · simp
          · intro j y hj hy
            simp only [decide_eq_true_eq] at hy
            exact unique_column_ids_inj hids hj hcd hy
        have hmove : move_note a.board nid cdest.id now = (.error e, a.board) := by
          unfold move_note
          rw [if_neg (not_not_intro hm)]
          simp only [hfcd, hfn, if_neg hselne, hwe]
        have hmtc : move_to_column a target now = (.error e.message, a) := by
          unfold move_to_column
          rw [if_neg hne]
          simp only [hoc, hnid, hcd, hmove]
        unfold move_selected
        rw [if_neg hne]
        simp only [hnone_false, Bool.false_eq_true, if_false]
        rw [← htarget, if_neg hneq]
        simp only [hmtc]
    · intro hneq hwip
      have hselne : ¬ a.selected_column = target := fun hcon => hneq hcon.symm
      have htlt : target < a.board.columns.length := by
        subst htarget
        unfold clampInt
        omega
      cases hcd : a.board.columns[target]? with
      | none =>
        rw [List.getElem?_eq_none_iff] at hcd
        omega
      | some cdest =>
        have hfcd : find_column_index a.board cdest.id = some target := by
          apply listPosition_eq_of_unique hcd
          · simp
          · intro j y hj hy
            simp only [decide_eq_true_eq] at hy
            exact unique_column_ids_inj hids hj hcd hy
        obtain ⟨b', hmove, hbcols⟩ :=
          move_note_ok_intro now hm hfcd hfn hselne hwip
        have hb't : b'.columns[target]? =
            some { cdest with note_ids := cdest.note_ids ++ [nid] } := by
          rw [hbcols, listModify_getElem?, if_pos rfl, listModify_getElem?,
            if_neg hneq, hcd]
          rfl
        have hb's : b'.columns[a.selected_column]? =
            some { csrc with
              note_ids := csrc.note_ids.filter (fun id => decide (¬ id = nid)) } := by
          rw [hbcols, listModify_getElem?, if_neg hselne, listModify_getElem?,
            if_pos rfl, hoc]
          rfl
        have hmtc : move_to_column a target now =
            (.ok (), { a with
              board := b'
              selected_column := target
              selected_note := cdest.note_ids.length }) := by
          unfold move_to_column
          rw [if_neg hne]
          simp only [hoc, hnid, hcd, hmove, hb't]
          simp
        refine ⟨b', cdest, rfl, hmove, ?_, hb't, ?_, ?_⟩
        · unfold move_selected
          rw [if_neg hne]
          simp only [hnone_false, Bool.false_eq_true, if_false]
          rw [← htarget, if_neg hneq]
          simp only [hmtc, hb't]
        · simp
        · refine ⟨_, hb's, ?_⟩
          simp

/-- C9 counterexample, two scenarios. At an edge (single column, forward) the
action is a complete no-op: the status line keeps its previous value `"s0"`,
so no status message is set, contrary to the claim. With a WIP-limited
adjacent column the note is not moved and the selection stays put, so the
claim's unconditional "otherwise the selected note is moved" is false. -/
theorem C9_counterexample_edge_and_wip :
    move_selected cexApp1 1 0 = cexApp1 ∧
    (move_selected cexApp1 1 0).status = "s0" ∧
    (move_selected cexApp2 1 0).board = cexApp2.board ∧
    (move_selected cexApp2 1 0).selected_column = 0 ∧
    (move_selected cexApp2 1 0).status =
      "Move failed: wip limit reached for column doing" :=
  ⟨by decide, by decide, by decide, by decide, by decide⟩

/-- C9 witness: the edge no-op branch and the successful-move branch at
concrete app states. -/
theorem C9_board_move_selected_witness :
    move_selected cexApp1 1 0 = cexApp1 ∧
    (∃ b' cdest,
      wApp.board.columns[1]? = some cdest ∧
      move_note wApp.board "a" cdest.id 0 = (.ok (), b') ∧
      move_selected wApp 1 0 =
        { board := b'
          selected_column := 1
          selected_note := cdest.note_ids.length
          status := "Moved to " ++ cdest.name } ∧
      b'.columns[1]? = some { cdest with note_ids := cdest.note_ids ++ ["a"] } ∧
      (cdest.note_ids ++ ["a"])[cdest.note_ids.length]? = some "a" ∧
      (∃ csrc2, b'.columns[0]? = some csrc2 ∧ "a" ∉ csrc2.note_ids)) := by
  constructor
  · exact ((C9_board_move_selected cexApp1 1 0 (by decide) (by decide)).2.2 "a" noteA
      (by decide) 0 (by decide)).1 (by decide)
  · exact ((C9_board_move_selected wApp 1 0 (by decide) (by decide)).2.2 "a" noteA
      (by decide) 1 (by decide)).2.2 (by decide) (by decide)
